import Mathlib

/-!
Verification of the parallel feature-location example notebook
(notebooks/parallel-locate.ipynb).

The notebook curries the single-image analysis entry point, maps it over a
frame sequence with a pool of workers, and concatenates the per-frame result
tables into one combined table.  The analysis routine itself (tp.locate), the
worker pool (ipyparallel) and the concatenation (pandas) are external
libraries; here they are embedded shallowly: the per-frame routine is an
abstract parameter, and the worker-pool map, the fetch of results and the
concatenation are modelled from the spec, faithful to its words.
-/

namespace ParallelLocate

/-- A row of a per-frame result table, with the columns the notebook's output
shows: positional coordinates, an intensity mass, a size measure, an
eccentricity, a signal measure, a raw mass, an error estimate, and the frame
index.  The numeric measurements are modelled as integers; the claims depend
only on row identity and on the frame column. -/
structure Row where
  y : Int
  x : Int
  mass : Int
  size : Int
  ecc : Int
  signal : Int
  raw_mass : Int
  ep : Int
  frame : Nat
  deriving DecidableEq

/-- A per-frame result table: an ordered row set. -/
abbrev Table := List Row

/-- A multi-channel image: rows of pixels, each pixel a list of channel
values. -/
abbrev Image3 := List (List (List Int))

/-- The per-frame grayscale transform of the notebook: gray returns the 2-D
array selecting the channel at index 1 of every pixel of the image.
Out-of-range selection is modelled with a default of 0; the claim about gray
is stated for well-formed multi-channel images, where the default is never
used. -/
def gray (image : Image3) : List (List Int) :=
  image.map (fun row => row.map (fun px => px.getD 1 0))

/-- The pixel of a multi-channel image at a given row and column, when in
range. -/
def pixelAt (image : Image3) (y x : Nat) : Option (List Int) :=
  (image.get? y).bind (fun row => row.get? x)

/-- The value of a 2-D array at a given row and column, when in range. -/
def cellAt (g : List (List Int)) (y x : Nat) : Option Int :=
  (g.get? y).bind (fun row => row.get? x)

/-- One frame of the sequence.  pims frames carry their index in the
sequence alongside the image data, which is how the external analysis
routine fills the frame column of the per-frame table. -/
structure Frame where
  frame_no : Nat
  image : Image3
  deriving DecidableEq

/-- The curried analysis function of the notebook: the single-image entry
point with the feature size 13 and the inversion flag bound, leaving the
image as the only argument.  The entry point itself is external, so it is
taken as a parameter. -/
def curried_locate (locate : Frame → Nat → Bool → Table) : Frame → Table :=
  fun image => locate image 13 true

/-- Modelled from the spec: the worker-pool map partitions the task indices
across the P workers (task i goes to worker i % P); each worker executes the
function on its own tasks independently, keeping each result paired with its
task index.  The worker pool itself (ipyparallel) is external to the
repository. -/
def workerResults (f : α → β) (P w : Nat) (xs : List α) : List (Nat × β) :=
  (List.range xs.length).filterMap (fun i =>
    if i % P = w then (xs.get? i).map (fun a => (i, f a)) else none)

/-- All (task index, result) pairs produced by the P workers, worker by
worker, i.e. in an order unrelated to the input order. -/
def poolPairs (f : α → β) (P : Nat) (xs : List α) : List (Nat × β) :=
  ((List.range P).map (fun w => workerResults f P w xs)).flatten

/-- Find the result recorded for a given task index. -/
def lookupIdx (i : Nat) : List (Nat × β) → Option β
  | [] => none
  | (k, b) :: rest => if i = k then some b else lookupIdx i rest

/-- Modelled from the spec: the fetched results are assembled back in input
order, by looking each task index up among the gathered pairs. -/
def gatherInOrder (n : Nat) (pairs : List (Nat × β)) : List β :=
  (List.range n).filterMap (fun i => lookupIdx i pairs)

/-- Modelled from the spec: mapping a function over a sequence with a pool
of P workers — partition the tasks across the workers, run them, and gather
the results in input order. -/
def poolMap (f : α → β) (P : Nat) (xs : List α) : List β :=
  gatherInOrder xs.length (poolPairs f P xs)

/-- A result table together with its row index, as pandas presents it. -/
structure DataFrame where
  index : List Nat
  rows : List Row
  deriving DecidableEq

/-- Modelled from the spec: pandas concat with the ignore_index flag — the
row-wise concatenation of the per-frame tables in list order, with the row
index renumbered to consecutive integers starting at 0.  pandas is external
to the repository. -/
def concatTables (tables : List Table) : DataFrame :=
  ⟨List.range tables.flatten.length, tables.flatten⟩

/-- The full pipeline on the worker-pool side: map the per-frame function
over the frames with the pool, then concatenate the per-frame tables. -/
def mapConcat (f : Frame → Table) (P : Nat) (frames : List Frame) : DataFrame :=
  concatTables (poolMap f P frames)

/-- Modelled from the spec: the batch entry point takes the frame sequence,
the feature size, the inversion flag and a worker count, runs the
single-image analysis on every frame with that many workers, and returns the
combined table.  Omitting the processes argument means one worker. -/
def batch (locate : Frame → Nat → Bool → Table) (frames : List Frame)
    (size : Nat) (invert : Bool) (processes : Nat) : DataFrame :=
  concatTables (poolMap (fun fr => locate fr size invert) processes frames)

/-- The spec's serial run, stated in the spec's words: a plain sequential
map over the frames followed by concatenation. -/
def serialMapConcat (f : Frame → Table) (frames : List Frame) : DataFrame :=
  concatTables (frames.map f)

/-- Whether an Except value is a success. -/
def exceptIsOk : Except ε β → Bool
  | .ok _ => true
  | .error _ => false

/-- Modelled from the spec: fetching the gathered results propagates the
first fault, in input order, if any task faulted; no fault is caught or
suppressed. -/
def sequenceExcept : List (Except ε β) → Except ε (List β)
  | [] => .ok []
  | .error e :: _ => .error e
  | .ok b :: rest => (sequenceExcept rest).map (fun l => b :: l)

/-- The pipeline with a fallible per-frame function: run every frame's task,
fetch the results (propagating any fault), then concatenate. -/
def mapConcatE (g : Frame → Except ε Table) (P : Nat) (frames : List Frame) :
    Except ε DataFrame :=
  match sequenceExcept (poolMap g P frames) with
  | .error e => .error e
  | .ok ts => .ok (concatTables ts)

/-- Modelled from the spec: the state of an asynchronous map result.  Slot i
holds task i's result once that task has completed, and nothing before. -/
structure AMR (α : Type u) (β : Type v) where
  func : α → β
  tasks : List α
  slots : List (Option β)

/-- The state right after submitting the tasks: no task has completed. -/
def AMR.mk0 (f : α → β) (xs : List α) : AMR α β :=
  ⟨f, xs, xs.map (fun _ => none)⟩

/-- Modelled from the spec: one scheduler step completes one pending task —
any pending one, since the view is load-balanced and completion order is
arbitrary. -/
def AMR.Step (s t : AMR α β) : Prop :=
  t.func = s.func ∧ t.tasks = s.tasks ∧
    ∃ i a, s.tasks.get? i = some a ∧ s.slots.get? i = some none ∧
      t.slots = s.slots.set i (some (s.func a))

/-- All slots filled, or nothing: the all-or-nothing collection of results. -/
def sequenceOptions : List (Option β) → Option (List β)
  | [] => some []
  | none :: _ => none
  | some b :: rest => (sequenceOptions rest).map (fun l => b :: l)

/-- Modelled from the spec: the caller's fetch (the interactive wait
followed by get) returns the result list only when every task has completed;
before that the caller keeps waiting and no partial list is ever returned. -/
def AMR.fetch (s : AMR α β) : Option (List β) :=
  sequenceOptions s.slots

/-- A synthetic row tagged with a frame index, for the concrete scenarios. -/
def exRow (k : Nat) : Row := ⟨0, 0, 0, 0, 0, 0, 0, 0, k⟩

/-- The four synthetic frames of the concrete scenario. -/
def exFrames : List Frame := [⟨0, []⟩, ⟨1, []⟩, ⟨2, []⟩, ⟨3, []⟩]

/-- The scenario's analysis function: frame k deterministically yields a
table of k + 1 rows tagged with k. -/
def exLocate (fr : Frame) : Table :=
  List.replicate (fr.frame_no + 1) (exRow fr.frame_no)

/-- A fallible analysis function for the fault scenario: frame 1 faults with
code 7, every other frame succeeds with one row. -/
def exLocateE (fr : Frame) : Except Nat Table :=
  if fr.frame_no = 1 then .error 7 else .ok [exRow fr.frame_no]

/-! ### The worker-pool map agrees with the sequential map -/

lemma mem_workerResults {f : α → β} {P w : Nat} {xs : List α} {i : Nat} {b : β} :
    (i, b) ∈ workerResults f P w xs ↔
      i % P = w ∧ ∃ a, xs.get? i = some a ∧ b = f a := by
  unfold workerResults
  constructor
  · intro hmem
    rcases List.mem_filterMap.mp hmem with ⟨j, _, hsome⟩
    by_cases hmod : j % P = w
    · rw [if_pos hmod] at hsome
      rcases Option.map_eq_some'.mp hsome with ⟨a, ha, hpair⟩
      have hji : j = i := congrArg Prod.fst hpair
      have hfb : f a = b := congrArg Prod.snd hpair
      subst hji
      exact ⟨hmod, a, ha, hfb.symm⟩
    · rw [if_neg hmod] at hsome
      exact absurd hsome (by simp)
  · rintro ⟨hmod, a, ha, rfl⟩
    refine List.mem_filterMap.mpr ⟨i, ?_, ?_⟩
    · exact List.mem_range.mpr (List.get?_eq_some.mp ha).1
    · rw [if_pos hmod, ha]
      rfl

lemma mem_poolPairs {f : α → β} {P : Nat} (hP : 1 ≤ P) {xs : List α}
    {i : Nat} {b : β} :
    (i, b) ∈ poolPairs f P xs ↔ ∃ a, xs.get? i = some a ∧ b = f a := by
  unfold poolPairs
  constructor
  · intro hmem
    rcases List.mem_flatten.mp hmem with ⟨block, hblock, hbmem⟩
    rcases List.mem_map.mp hblock with ⟨w, _, rfl⟩
    exact (mem_workerResults.mp hbmem).2
  · rintro ⟨a, ha, rfl⟩
    refine List.mem_flatten.mpr ⟨workerResults f P (i % P) xs, ?_, ?_⟩
    · exact List.mem_map.mpr ⟨i % P, List.mem_range.mpr (Nat.mod_lt i hP), rfl⟩
    · exact mem_workerResults.mpr ⟨rfl, a, ha, rfl⟩

lemma lookupIdx_eq_some_of_unique {l : List (Nat × β)} {i : Nat} {b : β}
    (hmem : (i, b) ∈ l) (huniq : ∀ c : β, (i, c) ∈ l → c = b) :
    lookupIdx i l = some b := by
  induction l with
  | nil => cases hmem
  | cons hd tl ih =>
    obtain ⟨k, c⟩ := hd
    by_cases hk : i = k
    · subst hk
      have hcb : c = b := huniq c (List.mem_cons_self _ _)
      simp [lookupIdx, hcb]
    · have hmem' : (i, b) ∈ tl := by
        rcases List.mem_cons.mp hmem with heq | h
        · exact absurd (congrArg Prod.fst heq) hk
        · exact h
      have huniq' : ∀ c' : β, (i, c') ∈ tl → c' = b :=
        fun c' hc' => huniq c' (List.mem_cons_of_mem _ hc')
      simpa [lookupIdx, hk] using ih hmem' huniq'

lemma lookupIdx_poolPairs {f : α → β} {P : Nat} (hP : 1 ≤ P) {xs : List α}
    {i : Nat} {a : α} (ha : xs.get? i = some a) :
    lookupIdx i (poolPairs f P xs) = some (f a) := by
  apply lookupIdx_eq_some_of_unique
  · exact (mem_poolPairs hP).mpr ⟨a, ha, rfl⟩
  · intro c hc
    rcases (mem_poolPairs hP).mp hc with ⟨a', ha', rfl⟩
    have : a = a' := Option.some.inj (ha.symm.trans ha')
    rw [this]

lemma range'_filterMap_eq_map {f : α → β} :
    ∀ (xs : List α) (s : Nat) (g : Nat → Option β),
      (∀ (i : Nat) (a : α), xs.get? i = some a → g (s + i) = some (f a)) →
      (List.range' s xs.length).filterMap g = xs.map f := by
  intro xs
  induction xs with
  | nil => intro s g _; rfl
  | cons a tl ih =>
    intro s g h
    have hlen : (a :: tl).length = tl.length + 1 := rfl
    rw [hlen, List.range'_succ]
    have h0 : g s = some (f a) := by
      have := h 0 a rfl
      simpa using this
    rw [List.filterMap_cons_some h0, List.map_cons]
    congr 1
    apply ih (s + 1)
    intro i b hb
    have := h (i + 1) b hb
    rw [show s + 1 + i = s + (i + 1) by omega]
    exact this

lemma poolMap_eq_map {f : α → β} {P : Nat} (hP : 1 ≤ P) (xs : List α) :
    poolMap f P xs = xs.map f := by
  unfold poolMap gatherInOrder
  rw [List.range_eq_range']
  apply range'_filterMap_eq_map
  intro i a ha
  rw [Nat.zero_add]
  exact lookupIdx_poolPairs hP ha

/-! ### Counting rows by frame index -/

lemma count_flatten_tagged :
    ∀ (ts : List Table) (base : Nat),
      (∀ (k : Nat) (hk : k < ts.length), ∀ r ∈ ts.get ⟨k, hk⟩, r.frame = base + k) →
      ∀ (j : Nat) (hj : j < ts.length),
        List.count (base + j) ((ts.flatten).map Row.frame) = (ts.get ⟨j, hj⟩).length := by
  intro ts
  induction ts with
  | nil => intro base _ j hj; exact absurd hj (by simp)
  | cons t rest ih =>
    intro base htag j hj
    have hflat : ((t :: rest).flatten).map Row.frame
        = t.map Row.frame ++ (rest.flatten).map Row.frame := by
      simp
    rw [hflat, List.count_append]
    have hhead : ∀ r ∈ t, r.frame = base := by
      intro r hr
      have := htag 0 (by simp) r hr
      simpa using this
    cases j with
    | zero =>
      have h1 : List.count base (t.map Row.frame) = t.length := by
        rw [List.count_eq_length.mpr]
        · exact List.length_map t Row.frame
        · intro b hb
          rcases List.mem_map.mp hb with ⟨r, hr, rfl⟩
          exact (hhead r hr).symm
      have h2 : List.count base ((rest.flatten).map Row.frame) = 0 := by
        rw [List.count_eq_zero.mpr]
        intro hmem
        rcases List.mem_map.mp hmem with ⟨r, hr, hfr⟩
        rcases List.mem_flatten.mp hr with ⟨t', ht', hrt'⟩
        rcases List.mem_iff_get.mp ht' with ⟨⟨k, hk⟩, rfl⟩
        have := htag (k + 1) (by simpa using Nat.succ_lt_succ hk) r hrt'
        omega
      rw [show base + 0 = base from rfl, h1, h2]
      rfl
    | succ j' =>
      have h1 : List.count (base + (j' + 1)) (t.map Row.frame) = 0 := by
        rw [List.count_eq_zero.mpr]
        intro hmem
        rcases List.mem_map.mp hmem with ⟨r, hr, hfr⟩
        have := hhead r hr
        omega
      have htag' : ∀ (k : Nat) (hk : k < rest.length),
          ∀ r ∈ rest.get ⟨k, hk⟩, r.frame = (base + 1) + k := by
        intro k hk r hr
        have := htag (k + 1) (by simpa using Nat.succ_lt_succ hk) r hr
        omega
      have hj' : j' < rest.length := by simpa using Nat.lt_of_succ_lt_succ hj
      have h2 := ih (base + 1) htag' j' hj'
      rw [h1, Nat.zero_add]
      rw [show base + (j' + 1) = (base + 1) + j' by omega]
      exact h2

/-! ### Positions of rows in the concatenation -/

lemma flatten_get?_position :
    ∀ (L : List (List α)) (i j : Nat) (t : List α) (r : α),
      L.get? i = some t → t.get? j = some r →
      L.flatten.get? ((((L.take i).map List.length).sum) + j) = some r := by
  intro L
  induction L with
  | nil => intro i j t r hi _; simp at hi
  | cons t0 rest ih =>
    intro i j t r hi hj
    cases i with
    | zero =>
      have ht : t0 = t := Option.some.inj hi
      subst ht
      have hjlt : j < t0.length := (List.get?_eq_some.mp hj).1
      have : (t0 :: rest).flatten = t0 ++ rest.flatten := by simp
      rw [this]
      simpa using (List.get?_append hjlt).trans hj
    | succ i' =>
      have hi' : rest.get? i' = some t := by simpa using hi
      have : (t0 :: rest).flatten = t0 ++ rest.flatten := by simp
      rw [this]
      have htake : ((t0 :: rest).take (i' + 1)).map List.length
          = t0.length :: (rest.take i').map List.length := by simp
      rw [htake, List.sum_cons]
      have hge : t0.length ≤ t0.length + (((rest.take i').map List.length).sum) + j := by
        omega
      rw [Nat.add_assoc, List.get?_append_right (by omega)]
      rw [show t0.length + ((((rest.take i').map List.length).sum) + j) - t0.length
        = (((rest.take i').map List.length).sum) + j by omega]
      exact ih i' j t r hi' hj

/-! ### Fault propagation through the fetch -/

lemma sequenceExcept_error_of_mem {l : List (Except ε β)} {e : ε}
    (h : Except.error e ∈ l) : ∃ e', sequenceExcept l = .error e' := by
  induction l with
  | nil => cases h
  | cons x rest ih =>
    cases x with
    | error e0 => exact ⟨e0, rfl⟩
    | ok b =>
      have hmem : Except.error e ∈ rest := by
        rcases List.mem_cons.mp h with heq | hm
        · cases heq
        · exact hm
      rcases ih hmem with ⟨e', he'⟩
      refine ⟨e', ?_⟩
      show (sequenceExcept rest).map (fun l => b :: l) = .error e'
      rw [he']
      rfl

lemma sequenceExcept_pinpoint :
    ∀ {l : List (Except ε β)} {i : Nat} {e : ε},
      l.get? i = some (.error e) →
      (∀ (j : Nat) (hj : j < l.length), j ≠ i → exceptIsOk (l.get ⟨j, hj⟩) = true) →
      sequenceExcept l = .error e := by
  intro l
  induction l with
  | nil => intro i e hi _; simp at hi
  | cons x rest ih =>
    intro i e hi hok
    cases i with
    | zero =>
      have hx : x = .error e := Option.some.inj hi
      subst hx
      rfl
    | succ i' =>
      cases x with
      | error e0 =>
        have := hok 0 (by simp) (by omega)
        simp [exceptIsOk] at this
      | ok b =>
        have hi' : rest.get? i' = some (.error e) := by simpa using hi
        have hok' : ∀ (j : Nat) (hj : j < rest.length), j ≠ i' →
            exceptIsOk (rest.get ⟨j, hj⟩) = true := by
          intro j hj hne
          exact hok (j + 1) (by simpa using Nat.succ_lt_succ hj) (by omega)
        have hrest := ih hi' hok'
        show (sequenceExcept rest).map (fun l => b :: l) = .error e
        rw [hrest]
        rfl

/-! ### The all-or-nothing fetch of the asynchronous result -/

lemma sequenceOptions_eq_some :
    ∀ (sl : List (Option β)) (l : List β),
      sequenceOptions sl = some l ↔ sl = l.map some := by
  intro sl
  induction sl with
  | nil =>
    intro l
    cases l with
    | nil => simp [sequenceOptions]
    | cons c l0 => simp [sequenceOptions]
  | cons x rest ih =>
    intro l
    cases x with
    | none =>
      cases l with
      | nil => simp [sequenceOptions]
      | cons c l0 => simp [sequenceOptions]
    | some b =>
      cases l with
      | nil =>
        constructor
        · intro h
          rcases Option.map_eq_some'.mp h with ⟨l', _, hcons⟩
          cases hcons
        · intro h
          cases h
      | cons c l0 =>
        constructor
        · intro h
          rcases Option.map_eq_some'.mp h with ⟨l', hl', hcons⟩
          injection hcons with hb hl0
          rw [List.map_cons, ← hb, ← hl0, (ih l').mp hl']
        · intro h
          rw [List.map_cons] at h
          injection h with hb hrest
          have hbc : b = c := Option.some.inj hb
          show (sequenceOptions rest).map (fun l => b :: l) = some (c :: l0)
          rw [(ih l0).mpr hrest, hbc]
          rfl

/-- The invariant tying an asynchronous-result state to its submission: the
function and tasks never change, the slot count matches the task count, and
a filled slot holds exactly the function's value on its task. -/
def AMR.Inv (f : α → β) (xs : List α) (s : AMR α β) : Prop :=
  s.func = f ∧ s.tasks = xs ∧ s.slots.length = xs.length ∧
    ∀ (i : Nat) (b : β), s.slots.get? i = some (some b) → (xs.get? i).map f = some b

lemma AMR.inv_mk0 (f : α → β) (xs : List α) : AMR.Inv f xs (AMR.mk0 f xs) := by
  refine ⟨rfl, rfl, by simp [AMR.mk0], ?_⟩
  intro i b h
  simp only [AMR.mk0] at h
  rw [List.get?_map] at h
  cases hx : xs.get? i with
  | none => rw [hx] at h; cases h
  | some a => rw [hx] at h; simp at h

lemma AMR.inv_step {f : α → β} {xs : List α} {s t : AMR α β}
    (hinv : AMR.Inv f xs s) (hstep : AMR.Step s t) : AMR.Inv f xs t := by
  obtain ⟨hfunc, htasks, hlen, hslot⟩ := hinv
  obtain ⟨hf, ht, k, a, hka, hkslot, hset⟩ := hstep
  refine ⟨hf.trans hfunc, ht.trans htasks, ?_, ?_⟩
  · rw [hset, List.length_set]
    exact hlen
  · intro i b hib
    rw [hset] at hib
    by_cases hik : k = i
    · subst hik
      rw [List.get?_set_eq] at hib
      have hksome : s.slots.get? k = some none := hkslot
      rw [hksome] at hib
      have hb : s.func a = b := by
        have : some (some (s.func a)) = some (some b) := hib
        exact Option.some.inj (Option.some.inj this)
      have hxa : xs.get? k = some a := by
        rw [← htasks]
        exact hka
      rw [hxa]
      rw [← hb, hfunc]
      rfl
    · rw [List.get?_set_ne _ _ hik] at hib
      exact hslot i b hib

lemma AMR.inv_reachable {f : α → β} {xs : List α} {s : AMR α β}
    (h : Relation.ReflTransGen AMR.Step (AMR.mk0 f xs) s) : AMR.Inv f xs s := by
  induction h with
  | refl => exact AMR.inv_mk0 f xs
  | tail _ hstep ih => exact AMR.inv_step ih hstep

/-- A concrete parameterised analysis function, for the serial-parallel
witness: frame fr yields size rows tagged with the frame's index. -/
def exLocateP (fr : Frame) (size : Nat) (_invert : Bool) : Table :=
  List.replicate size (exRow fr.frame_no)

/-! ### The claims -/

/-- C1: Mapping a per-frame analysis function over a frame sequence with any
pool size P ≥ 1 and concatenating gives a combined table whose row count is
the sum of the per-frame row counts, and whose frame column contains each
index j exactly as many times as frame j's table has rows; concretely, on 4
synthetic frames where frame k yields k + 1 rows, the combined table has 10
rows with frame column values 0 once, then 1 twice, then 2 three times, then
3 four times, in that relative order. -/
theorem mapConcat_row_counts :
    (∀ (f : Frame → Table) (frames : List Frame) (P : Nat), 1 ≤ P →
      (∀ (k : Nat) (hk : k < frames.length), ∀ r ∈ f (frames.get ⟨k, hk⟩), r.frame = k) →
      (mapConcat f P frames).rows.length = ((frames.map f).map List.length).sum ∧
      ∀ (j : Nat) (hj : j < frames.length),
        List.count j ((mapConcat f P frames).rows.map Row.frame)
          = (f (frames.get ⟨j, hj⟩)).length) ∧
    (mapConcat exLocate 2 exFrames).rows.length = 10 ∧
    (mapConcat exLocate 2 exFrames).rows.map Row.frame
      = [0, 1, 1, 2, 2, 2, 3, 3, 3, 3] := by
  refine ⟨?_, by decide, by decide⟩
  intro f frames P hP htag
  have hrows : (mapConcat f P frames).rows = (frames.map f).flatten := by
    show (poolMap f P frames).flatten = _
    rw [poolMap_eq_map hP]
  constructor
  · rw [hrows]
    exact List.length_flatten _
  · intro j hj
    rw [hrows]
    have hjm : j < (frames.map f).length := by
      rw [List.length_map]
      exact hj
    have htag' : ∀ (k : Nat) (hk : k < (frames.map f).length),
        ∀ r ∈ (frames.map f).get ⟨k, hk⟩, r.frame = 0 + k := by
      intro k hk r hr
      rw [List.get_map] at hr
      rw [Nat.zero_add]
      exact htag k (by simpa using hk) r hr
    have hcount := count_flatten_tagged (frames.map f) 0 htag' j hjm
    rw [Nat.zero_add] at hcount
    rw [hcount, List.get_map]

/-- Witness for C1: the general part instantiated at the concrete
scenario. -/
theorem mapConcat_row_counts_witness :
    (mapConcat exLocate 2 exFrames).rows.length
        = ((exFrames.map exLocate).map List.length).sum ∧
    ∀ (j : Nat) (hj : j < exFrames.length),
      List.count j ((mapConcat exLocate 2 exFrames).rows.map Row.frame)
        = (exLocate (exFrames.get ⟨j, hj⟩)).length :=
  mapConcat_row_counts.1 exLocate exFrames 2 (by decide) (by decide)

/-- C2: For every deterministic per-frame function and every worker-pool
size P ≥ 1, the list returned by the worker-pool map is in input order: it
has the same length as the input, and its i-th element is the function
applied to the i-th input element. -/
theorem poolMap_order_matches_input (f : α → β) (P : Nat) (hP : 1 ≤ P)
    (xs : List α) :
    (poolMap f P xs).length = xs.length ∧
    ∀ i : Nat, (poolMap f P xs).get? i = (xs.get? i).map f := by
  rw [poolMap_eq_map hP xs]
  exact ⟨List.length_map xs f, fun i => List.get?_map f xs i⟩

/-- Witness for C2 at a concrete input and pool size. -/
theorem poolMap_order_matches_input_witness :
    ((poolMap (fun n : Nat => n * n) 3 [2, 5, 7]).length
        = ([2, 5, 7] : List Nat).length ∧
      ∀ i : Nat, (poolMap (fun n : Nat => n * n) 3 [2, 5, 7]).get? i
        = (([2, 5, 7] : List Nat).get? i).map (fun n => n * n)) ∧
    poolMap (fun n : Nat => n * n) 3 [2, 5, 7] = [4, 25, 49] :=
  ⟨poolMap_order_matches_input (fun n => n * n) 3 (by decide) [2, 5, 7], by decide⟩

/-- C3: Serial and parallel runs agree: the batch entry point with any
worker count P ≥ 1 equals batch with one worker and equals the plain
sequential map-then-concatenate, and likewise the worker-pool pipeline on
any per-frame function equals its serial counterpart. -/
theorem serial_parallel_equivalent (locate : Frame → Nat → Bool → Table)
    (f : Frame → Table) (frames : List Frame) (size : Nat) (invert : Bool)
    (P : Nat) (hP : 1 ≤ P) :
    batch locate frames size invert P = batch locate frames size invert 1 ∧
    batch locate frames size invert P
      = serialMapConcat (fun fr => locate fr size invert) frames ∧
    mapConcat f P frames = serialMapConcat f frames := by
  simp only [batch, serialMapConcat, mapConcat, poolMap_eq_map hP,
    poolMap_eq_map (le_refl 1)]
  exact ⟨trivial, trivial, trivial⟩

/-- Witness for C3 at a concrete analysis function, frames and pool size. -/
theorem serial_parallel_equivalent_witness :
    (batch exLocateP exFrames 2 true 3 = batch exLocateP exFrames 2 true 1 ∧
      batch exLocateP exFrames 2 true 3
        = serialMapConcat (fun fr => exLocateP fr 2 true) exFrames ∧
      mapConcat exLocate 3 exFrames = serialMapConcat exLocate exFrames) :=
  serial_parallel_equivalent exLocateP exLocate exFrames 2 true 3 (by decide)

/-- C4: Mapping and concatenating an empty frame sequence yields the empty
combined table — zero rows — and, the model being total, no fault. -/
theorem mapConcat_empty_sequence (f : Frame → Table) (P : Nat) :
    mapConcat f P [] = ⟨[], []⟩ ∧ (mapConcat f P []).rows.length = 0 := by
  constructor <;> simp [mapConcat, poolMap, gatherInOrder, concatTables]

/-- C5: If the per-frame analysis faults on some frame, the map-and-fetch
propagates a fault to the caller — it returns an error, never a combined
table with the frame silently dropped; and when every other frame succeeds,
the error returned is exactly the faulting frame's. -/
theorem fault_propagation {ε : Type} (g : Frame → Except ε Table) (P : Nat)
    (frames : List Frame) (i : Nat) (fr : Frame) (e : ε) (hP : 1 ≤ P)
    (hi : frames.get? i = some fr) (he : g fr = .error e) :
    (∃ e', mapConcatE g P frames = .error e') ∧
    ((∀ (j : Nat) (hj : j < frames.length), j ≠ i →
        exceptIsOk (g (frames.get ⟨j, hj⟩)) = true) →
      mapConcatE g P frames = .error e) := by
  have hpool : poolMap g P frames = frames.map g := poolMap_eq_map hP frames
  constructor
  · have hmem : Except.error e ∈ frames.map g := by
      rcases List.get?_eq_some.mp hi with ⟨hlt, hget⟩
      refine List.mem_map.mpr ⟨fr, ?_, he⟩
      rw [← hget]
      exact List.get_mem frames i hlt
    rcases sequenceExcept_error_of_mem hmem with ⟨e', he'⟩
    refine ⟨e', ?_⟩
    unfold mapConcatE
    rw [hpool, he']
  · intro hok
    have hgi : (frames.map g).get? i = some (.error e) := by
      rw [List.get?_map, hi, Option.map_some', he]
    have hokm : ∀ (j : Nat) (hj : j < (frames.map g).length), j ≠ i →
        exceptIsOk ((frames.map g).get ⟨j, hj⟩) = true := by
      intro j hj hne
      rw [List.get_map]
      exact hok j (by simpa using hj) hne
    have hseq := sequenceExcept_pinpoint hgi hokm
    unfold mapConcatE
    rw [hpool, hseq]

/-- Witness for C5 at the concrete fault scenario: frame 1 faults with code
7 and the pipeline returns exactly that fault. -/
theorem fault_propagation_witness :
    mapConcatE exLocateE 2 exFrames = .error 7 :=
  (fault_propagation exLocateE 2 exFrames 1 ⟨1, []⟩ 7 (by decide) (by decide)
    rfl).2 (by decide)

/-- C6: The curried analysis function applied to an image is exactly the
single-image entry point at that image with the bound parameters: feature
size 13 and inversion flag true. -/
theorem curried_locate_binds_parameters (locate : Frame → Nat → Bool → Table)
    (image : Frame) :
    curried_locate locate image = locate image 13 true := rfl

/-- C7: The combined table is the row-wise concatenation of the per-frame
tables in input order: its rows are the flattening of the tables, its index
is renumbered to the consecutive integers from 0 to total - 1, and row j of
table i appears unchanged at the position given by the total length of the
earlier tables plus j. -/
theorem concat_preserves_rows_renumbers_index (tables : List Table) :
    (concatTables tables).rows = tables.flatten ∧
    (concatTables tables).index = List.range ((tables.map List.length).sum) ∧
    ∀ (i j : Nat) (t : Table) (r : Row), tables.get? i = some t →
      t.get? j = some r →
      (concatTables tables).rows.get? ((((tables.take i).map List.length).sum) + j)
        = some r := by
  refine ⟨rfl, ?_, ?_⟩
  · show List.range tables.flatten.length = _
    rw [List.length_flatten]
  · intro i j t r hi hj
    exact flatten_get?_position tables i j t r hi hj

/-- Witness for C7: the positional part at a concrete pair of tables. -/
theorem concat_preserves_rows_renumbers_index_witness :
    (concatTables [[exRow 0], [exRow 1, exRow 2]]).rows.get?
        (((([[exRow 0], [exRow 1, exRow 2]] : List Table).take 1).map
          List.length).sum + 1)
      = some (exRow 2) :=
  (concat_preserves_rows_renumbers_index [[exRow 0], [exRow 1, exRow 2]]).2.2
    1 1 [exRow 1, exRow 2] (exRow 2) (by decide) (by decide)

/-- C8: The grayscale transform selects the channel at index 1: it keeps the
row count, and at every in-range position of a well-formed multi-channel
image the resulting cell is exactly that pixel's channel-1 value,
unchanged. -/
theorem gray_selects_channel_one (img : Image3) (y x : Nat) (px : List Int)
    (hpx : pixelAt img y x = some px) (hlen : 2 ≤ px.length) :
    cellAt (gray img) y x = px.get? 1 ∧ (gray img).length = img.length := by
  constructor
  · unfold pixelAt at hpx
    cases hrow : img.get? y with
    | none =>
      rw [hrow] at hpx
      cases hpx
    | some row =>
      rw [hrow] at hpx
      have hx : row.get? x = some px := hpx
      unfold cellAt gray
      rw [List.get?_map, hrow, Option.map_some']
      show (row.map (fun p => p.getD 1 0)).get? x = px.get? 1
      rw [List.get?_map, hx, Option.map_some']
      have h1 : 1 < px.length := by omega
      rw [List.getD_eq_get px 0 h1, List.get?_eq_get h1]
  · exact List.length_map img _

/-- Witness for C8 at a concrete two-pixel, three-channel image. -/
theorem gray_selects_channel_one_witness :
    (cellAt (gray [[[1, 2, 3], [4, 5, 6]]]) 0 1 = [4, 5, 6].get? 1 ∧
      (gray [[[1, 2, 3], [4, 5, 6]]]).length
        = ([[[1, 2, 3], [4, 5, 6]]] : Image3).length) ∧
    cellAt (gray [[[1, 2, 3], [4, 5, 6]]]) 0 1 = some 5 :=
  ⟨gray_selects_channel_one [[[1, 2, 3], [4, 5, 6]]] 0 1 [4, 5, 6]
    (by decide) (by decide), by decide⟩

/-- C9: The fetch of the asynchronous map result is all-or-nothing: in any
state reachable from the submission of the tasks, a successful fetch returns
the full result list — one result per task, equal to the sequential map —
and only once every task has completed; no partial list is ever returned. -/
theorem fetch_only_after_all_complete (f : α → β) (xs : List α) (s : AMR α β)
    (hreach : Relation.ReflTransGen AMR.Step (AMR.mk0 f xs) s) (l : List β)
    (hfetch : s.fetch = some l) :
    l.length = xs.length ∧ l = xs.map f ∧
    ∀ i : Nat, i < xs.length → s.slots.get? i ≠ some none := by
  obtain ⟨hfunc, htasks, hlen, hslot⟩ := AMR.inv_reachable hreach
  have hslots : s.slots = l.map some := (sequenceOptions_eq_some s.slots l).mp hfetch
  have hlenl : l.length = xs.length := by
    rw [← hlen, hslots, List.length_map]
  refine ⟨hlenl, ?_, ?_⟩
  · apply List.ext
    intro n
    by_cases hn : n < l.length
    · have hsome : s.slots.get? n = some (some (l.get ⟨n, hn⟩)) := by
        rw [hslots, List.get?_map, List.get?_eq_get hn, Option.map_some']
      have hval := hslot n (l.get ⟨n, hn⟩) hsome
      rw [List.get?_map, hval, List.get?_eq_get hn]
    · have h1 : l.get? n = none := List.get?_eq_none.mpr (by omega)
      have h2 : (xs.map f).get? n = none := by
        refine List.get?_eq_none.mpr ?_
        rw [List.length_map]
        omega
      rw [h1, h2]
  · intro i hi hcon
    rw [hslots, List.get?_map] at hcon
    rcases Option.map_eq_some'.mp hcon with ⟨b, _, hb⟩
    cases hb

/-- A fully completed asynchronous-result state over two tasks. -/
def wAMR2 : AMR Nat Nat := ⟨fun n => n + 1, [1, 2], [some 2, some 3]⟩

lemma wAMR2_reachable :
    Relation.ReflTransGen AMR.Step (AMR.mk0 (fun n => n + 1) [1, 2]) wAMR2 := by
  have h1 : AMR.Step (AMR.mk0 (fun n => n + 1) [1, 2])
      ⟨fun n => n + 1, [1, 2], [some 2, none]⟩ :=
    ⟨rfl, rfl, 0, 1, rfl, rfl, rfl⟩
  have h2 : AMR.Step (⟨fun n => n + 1, [1, 2], [some 2, none]⟩ : AMR Nat Nat)
      wAMR2 :=
    ⟨rfl, rfl, 1, 2, rfl, rfl, rfl⟩
  exact Relation.ReflTransGen.tail
    (Relation.ReflTransGen.tail Relation.ReflTransGen.refl h1) h2

/-- Witness for C9: a concrete fully completed run over two tasks. -/
theorem fetch_only_after_all_complete_witness :
    ([2, 3] : List Nat).length = ([1, 2] : List Nat).length ∧
    ([2, 3] : List Nat) = ([1, 2] : List Nat).map (fun n => n + 1) ∧
    ∀ i : Nat, i < ([1, 2] : List Nat).length → wAMR2.slots.get? i ≠ some none :=
  fetch_only_after_all_complete (fun n => n + 1) [1, 2] wAMR2 wAMR2_reachable
    [2, 3] rfl

/-- C10: The curried pipeline is deterministic as a two-run property: any
two runs of the worker-pool map over the same frames, serial or parallel in
any combination of pool sizes, return element-wise identical result lists,
both equal to the sequential map. -/
theorem pipeline_deterministic_two_runs (f : α → β) (xs : List α)
    (P1 P2 : Nat) (h1 : 1 ≤ P1) (h2 : 1 ≤ P2) :
    poolMap f P1 xs = poolMap f P2 xs ∧
    poolMap f P1 xs = xs.map f ∧
    ∀ i : Nat, (poolMap f P1 xs).get? i = (poolMap f P2 xs).get? i := by
  rw [poolMap_eq_map h1, poolMap_eq_map h2]
  exact ⟨rfl, rfl, fun _ => rfl⟩

/-- Witness for C10: two concrete runs with different pool sizes. -/
theorem pipeline_deterministic_two_runs_witness :
    poolMap exLocate 2 exFrames = poolMap exLocate 5 exFrames ∧
    poolMap exLocate 2 exFrames = exFrames.map exLocate ∧
    ∀ i : Nat, (poolMap exLocate 2 exFrames).get? i
      = (poolMap exLocate 5 exFrames).get? i :=
  pipeline_deterministic_two_runs exLocate exFrames 2 5 (by decide) (by decide)

end ParallelLocate
